import Mathlib

/-!
# AIdirscan: a shallow embedding of `main.go`

The scanner reads a dictionary of paths, a list of target URLs, two
comma-separated lists of status codes, and a worker count.  For every target
it starts a pool of goroutines that probe `target + path`, collects the
results from a channel, filters them by status code, and appends the kept ones
to a running aggregate.

Modelling conventions.

* A Go `string` is the list of its characters (`GoString`).  The only bytes the
  program inspects are ASCII (`/`, `#`, `,`, `%`, white space), which never occur
  inside a multi-byte UTF-8 sequence, so the character view and the byte view
  agree on well-formed text.
* Go `int` is `Int`; no arithmetic in the modelled code can overflow.
* `time.Duration` is a `Nat` (nanoseconds) supplied by the environment.
* Everything the operating system or the network decides (the outcome of an
  HTTP GET, whether a file can be created, how goroutines interleave) is an
  explicit input of the corresponding definition.
-/

namespace AIdirscan

/-! ## Strings -/

/-- A Go string, as the list of its characters. -/
abbrev GoString := List Char

/-- Go `strings.HasPrefix`. -/
def HasPrefix (s pre : GoString) : Bool := pre.isPrefixOf s

/-- Go `strings.HasSuffix`. -/
def HasSuffix (s suf : GoString) : Bool := suf.isSuffixOf s

/-- Go `strings.TrimPrefix`: `s` without the leading `pre`, or `s` itself when
`s` does not start with `pre`. -/
def TrimPrefix (s pre : GoString) : GoString :=
  if HasPrefix s pre then s.drop pre.length else s

/-! ## Scan results and the status filter -/

/-- The Go struct `ScanResult`. -/
structure ScanResult where
  URL : GoString
  StatusCode : Int
  Time : Nat
deriving DecidableEq, Repr

/-- The helper `contains` of `main.go`: a linear search through the slice. -/
def contains : List Int → Int → Bool
  | [], _ => false
  | s :: rest, item => if s = item then true else contains rest item

/-- The two variables the collection loop of `main` updates: the slice
`urlResults` and the number of times `bar.Add(1)` has been called. -/
structure CollectState where
  urlResults : List ScanResult
  bar : Nat
deriving DecidableEq, Repr

/-- One iteration of `for result := range results { ... }` in `main`. -/
def collectBody (filterStatusCodes ignoreStatusCodes : List Int)
    (st : CollectState) (result : ScanResult) : CollectState :=
  if contains ignoreStatusCodes result.StatusCode then
    -- bar.Add(1); continue
    { urlResults := st.urlResults, bar := st.bar + 1 }
  else
    let kept :=
      if filterStatusCodes.length == 0 || contains filterStatusCodes result.StatusCode then
        st.urlResults ++ [result]
      else
        st.urlResults
    { urlResults := kept, bar := st.bar + 1 }

/-- The whole collection loop of `main`, run over the values received from the
`results` channel in arrival order, starting from `var urlResults []ScanResult`
and a fresh progress bar. -/
def collectLoop (filterStatusCodes ignoreStatusCodes : List Int)
    (arrivals : List ScanResult) : CollectState :=
  arrivals.foldl (collectBody filterStatusCodes ignoreStatusCodes)
    { urlResults := [], bar := 0 }

/-- The status filter as the specification words it: a result passes when its
code is not denied and the allow-list is empty or holds the code. -/
def passesFilter (allow deny : List Int) (r : ScanResult) : Bool :=
  decide (r.StatusCode ∉ deny) && (decide (allow = []) || decide (r.StatusCode ∈ allow))

/-! ## White space, splitting and `fmt.Sscanf` (Go standard library) -/

/-- Go `unicode.IsSpace`: the Latin-1 spaces and the code points with the
Unicode White_Space property. -/
def isSpace (c : Char) : Bool :=
  let n := c.toNat
  n == 0x09 || n == 0x0A || n == 0x0B || n == 0x0C || n == 0x0D || n == 0x20
    || n == 0x85 || n == 0xA0 || n == 0x1680 || (0x2000 ≤ n && n ≤ 0x200A)
    || n == 0x2028 || n == 0x2029 || n == 0x202F || n == 0x205F || n == 0x3000

/-- Go `strings.TrimSpace`: all leading and trailing white space removed. -/
def TrimSpace (s : GoString) : GoString :=
  ((s.dropWhile isSpace).reverse.dropWhile isSpace).reverse

/-- Go `strings.Split(s, sep)` for a one-character separator: the pieces of `s`
between the separators, of which there is always at least one. -/
def Split (sep : Char) : GoString → List GoString
  | [] => [[]]
  | c :: cs =>
    if c = sep then [] :: Split sep cs
    else
      match Split sep cs with
      | [] => [[c]]
      | piece :: pieces => (c :: piece) :: pieces

/-- The errors `fmt.Sscanf(str, "%d", a...)` can report. -/
inductive ScanfError where
  | unexpectedNewline
  | tooFewOperands
  | tooManyOperands
  | unexpectedEOF
  | expectedInteger
  | integerOverflow
deriving DecidableEq, Repr

/-- What a call of `fmt.Sscanf` leaves behind: the count `n` it returns, the
error it returns (`none` is Go's `nil`), and the integers it stored through the
operand pointers. -/
structure ScanfResult where
  n : Int
  err : Option ScanfError
  stored : List Int
deriving DecidableEq, Repr

/-- The `SkipSpace` of `fmt`'s scanner as `Sscanf` uses it (newlines are not
spaces there): drops leading spaces, fails on a newline. -/
def skipSpace : GoString → Except ScanfError GoString
  | [] => .ok []
  | c :: cs =>
    if c = '\r' ∧ cs.head? = some '\n' then skipSpace cs
    else if c = '\n' then .error .unexpectedNewline
    else if isSpace c then skipSpace cs
    else .ok (c :: cs)

/-- The value of a run of decimal digits. -/
def digitsValue (ds : List Char) : Nat :=
  ds.foldl (fun acc d => 10 * acc + (d.toNat - 48)) 0

/-- The `scanInt` of `fmt`'s scanner for the verb `%d` and a 64-bit `int`: an
optional sign, then at least one decimal digit. -/
def scanInt (input : GoString) : Except ScanfError Int :=
  match input with
  | [] => .error .unexpectedEOF
  | c :: cs =>
    let negative := c = '-'
    let body := if c = '+' ∨ c = '-' then cs else c :: cs
    let ds := body.takeWhile Char.isDigit
    if ds = [] then .error .expectedInteger
    else
      let v : Int := if negative then -(digitsValue ds : Int) else (digitsValue ds : Int)
      if v < -(2 ^ 63 : Int) ∨ (2 ^ 63 : Int) ≤ v then .error .integerOverflow
      else .ok v

/-- Go `fmt.Sscanf(str, "%d", a...)` where `a` holds `nOperands` operands of
type `*int`, following `doScanf`: after the verb is read and leading space is
skipped, the scanner asks for the next operand and reports
`too few operands for format` when there is none; otherwise it scans one
integer into it; operands left over at the end are `too many operands`. -/
def Sscanf_d (str : GoString) (nOperands : Nat) : ScanfResult :=
  match skipSpace str with
  | .error e => { n := 0, err := some e, stored := [] }
  | .ok input =>
    if nOperands = 0 then { n := 0, err := some .tooFewOperands, stored := [] }
    else
      match scanInt input with
      | .error e => { n := 0, err := some e, stored := [] }
      | .ok v =>
        if 1 < nOperands then { n := 1, err := some .tooManyOperands, stored := [v] }
        else { n := 1, err := none, stored := [v] }

/-! ## Status-code arguments -/

/-- The helper `parseInt` of `main.go`, whose body is
`return fmt.Sscanf(s, "%d")`: the call passes no operand, and the pair returned
is `Sscanf`'s own count and error. -/
def parseInt (s : GoString) : Int × Option ScanfError :=
  let r := Sscanf_d s 0
  (r.n, r.err)

/-- The loop of `main` that turns the argument of `-s` (and, with the same
code, of `-i`) into a slice of status codes. -/
def parseStatusCodes (statusCodes : GoString) : List Int :=
  if statusCodes ≠ [] then
    (Split ',' statusCodes).foldl
      (fun codes code =>
        let code := TrimSpace code
        if code ≠ [] then
          match parseInt code with
          | (statusCode, none) => codes ++ [statusCode]
          | (_, some _) => codes
        else codes)
      []
  else []

/-- The integer a token of decimal digits with an optional sign denotes, as the
specification reads `parseInt`. -/
def writtenInteger (t : GoString) : Option Int :=
  match scanInt t with
  | .ok v => some v
  | .error _ => none

/-! ## Probing one URL -/

/-- What `http.Get` comes back with: an error, or a response with a status
code. -/
inductive GetOutcome where
  | transportError
  | response (StatusCode : Int)
deriving DecidableEq, Repr

/-- The statement `if !strings.HasSuffix(baseURL, "/") { baseURL += "/" }` at
the head of the per-target loop of `main`. -/
def normalizeBase (baseURL : GoString) : GoString :=
  if !HasSuffix baseURL ['/'] then baseURL ++ ['/'] else baseURL

/-- The function `scanURL` of `main.go`.  `httpGet` is the network at the time
of the call, `elapsed` is what `time.Since(startTime)` reads, and the channel
`results` is the list of values sent on it so far. -/
def scanURL (httpGet : GoString → GetOutcome) (elapsed : Nat)
    (baseURL dir : GoString) (results : List ScanResult) : List ScanResult :=
  let url := baseURL ++ TrimPrefix dir ['/']
  match httpGet url with
  | .transportError =>
    results ++ [{ URL := url, StatusCode := 0, Time := elapsed }]
  | .response code =>
    results ++ [{ URL := url, StatusCode := code, Time := elapsed }]

/-! ## The dictionary -/

/-- What the file system answers to the calls `loadDictionary` makes. -/
structure DictFile where
  /-- whether `os.Stat` reports that `dicc/dicc.txt` does not exist -/
  notExist : Bool
  /-- whether `os.MkdirAll("dicc", 0755)` fails -/
  mkdirFails : Bool
  /-- whether `os.Create` of the dictionary fails -/
  createFails : Bool
  /-- whether `os.Open` of the dictionary fails -/
  openFails : Bool
  /-- the successive values of `scanner.Text()` -/
  lines : List GoString
  /-- whether `scanner.Err()` is non-nil once scanning has stopped -/
  scanFails : Bool

/-- The errors `loadDictionary` returns. -/
inductive DictError where
  | mkdirFailed
  | createFailed
  | openFailed
  | readFailed
  | emptyDictionary
deriving DecidableEq, Repr

/-- The slice `defaultPaths` written to a fresh dictionary file. -/
def defaultPaths : List GoString :=
  ["/", "/admin", "/login", "/wp-admin", "/phpinfo.php", "/robots.txt", "/sitemap.xml",
   "/.git", "/.env", "/api", "/backup", "/config", "/data", "/db", "/docs", "/images",
   "/includes", "/install", "/logs", "/media", "/php", "/scripts", "/src", "/static",
   "/templates", "/tmp", "/uploads", "/vendor"].map String.toList

/-- One iteration of the `for scanner.Scan()` loop of `loadDictionary`. -/
def dictLine (paths : List GoString) (text : GoString) : List GoString :=
  let path := TrimSpace text
  if path ≠ [] ∧ !HasPrefix path ['#'] then
    let path := if !HasPrefix path ['/'] then ['/'] ++ path else path
    paths ++ [path]
  else paths

/-- The function `loadDictionary` of `main.go`. -/
def loadDictionary (fs : DictFile) : Except DictError (List GoString) :=
  if fs.notExist then
    if fs.mkdirFails then .error .mkdirFailed
    else if fs.createFails then .error .createFailed
    else .ok defaultPaths
  else if fs.openFails then .error .openFailed
  else
    let paths := fs.lines.foldl dictLine []
    if fs.scanFails then .error .readFailed
    else if paths.length = 0 then .error .emptyDictionary
    else .ok paths

/-- A dictionary line as the specification describes an entry: trimmed, and
given a leading slash exactly when it has none. -/
def entryOfLine (line : GoString) : GoString :=
  if (TrimSpace line).head? = some '/' then TrimSpace line else '/' :: TrimSpace line

/-- Whether a dictionary line yields an entry: its trimmed text is neither
empty nor starts with `#`. -/
def isEntryLine (line : GoString) : Bool :=
  decide (TrimSpace line ≠ [] ∧ (TrimSpace line).head? ≠ some '#')

/-! ## Saving results -/

/-- Go `strings.ReplaceAll(s, old, new)` for one-character `old` and `new`. -/
def ReplaceAll (s : GoString) (old new : Char) : GoString :=
  s.map (fun c => if c = old then new else c)

/-- The function `generateFileName` of `main.go`.  `parsedHost` is what
`url.Parse(inputURL)` answers: `none` for an error, otherwise the `Host` of the
parsed URL. -/
def generateFileName (parsedHost : Option GoString) : Except Unit GoString :=
  match parsedHost with
  | none => .error ()
  | some host =>
    let fileName := ReplaceAll host '.' '_'
    let fileName := ReplaceAll fileName ':' '_'
    .ok fileName

/-- A file written by `saveResults`: its name under `result/` and the rows
written after the header, one per result. -/
structure SavedFile where
  name : GoString
  rows : List ScanResult
deriving DecidableEq, Repr

/-- The function `saveResults` of `main.go`; `mkdirFails` and `createFails`
are the answers of `os.MkdirAll` and `os.Create`.  On success the list of files
written grows by one. -/
def saveResults (mkdirFails createFails : Bool) (results : List ScanResult)
    (fileName : GoString) (disk : List SavedFile) : Except Unit (List SavedFile) :=
  if mkdirFails then .error ()
  else if createFails then .error ()
  else .ok (disk ++ [{ name := fileName, rows := results }])

/-! ## The per-target loop of `main` -/

/-- Everything outside the program that one iteration of the per-target loop
depends on. -/
structure TargetEnv where
  /-- the values the collection loop receives from `results`, in arrival order -/
  arrivals : List ScanResult
  /-- the answer of `url.Parse` inside `generateFileName` -/
  parsedHost : Option GoString
  /-- whether `os.MkdirAll("result", 0755)` fails -/
  mkdirFails : Bool
  /-- whether `os.Create` of the result file fails -/
  createFails : Bool

/-- The lines the per-target loop prints about saving. -/
inductive SaveLog where
  | fileNameFailed
  | saveFailed
  | saved (fileName : GoString)
deriving DecidableEq, Repr

/-- The variables of `main` that outlive one iteration of the per-target loop,
with the observable trace of the loop: the targets scanned, the files written
and the messages printed. -/
structure MainState where
  allResults : List ScanResult
  scanned : List GoString
  disk : List SavedFile
  log : List SaveLog
deriving DecidableEq, Repr

/-- One iteration of `for i, baseURL := range urls` in `main`. -/
def targetBody (filterStatusCodes ignoreStatusCodes : List Int)
    (st : MainState) (target : GoString × TargetEnv) : MainState :=
  let baseURL := normalizeBase target.1
  let env := target.2
  let urlResults := (collectLoop filterStatusCodes ignoreStatusCodes env.arrivals).urlResults
  let allResults := st.allResults ++ urlResults
  let scanned := st.scanned ++ [baseURL]
  match generateFileName env.parsedHost with
  | .error _ =>
    -- continue
    { allResults := allResults, scanned := scanned, disk := st.disk,
      log := st.log ++ [.fileNameFailed] }
  | .ok fileName =>
    let fileName := fileName ++ ".txt".toList
    match saveResults env.mkdirFails env.createFails urlResults fileName st.disk with
    | .error _ =>
      -- continue
      { allResults := allResults, scanned := scanned, disk := st.disk,
        log := st.log ++ [.saveFailed] }
    | .ok disk =>
      { allResults := allResults, scanned := scanned, disk := disk,
        log := st.log ++ [.saved fileName] }

/-- The per-target loop of `main`, from `var allResults []ScanResult`. -/
def targetLoop (filterStatusCodes ignoreStatusCodes : List Int)
    (urls : List (GoString × TargetEnv)) : MainState :=
  urls.foldl (targetBody filterStatusCodes ignoreStatusCodes)
    { allResults := [], scanned := [], disk := [], log := [] }

/-! ## The worker pool of one target

The goroutines of one iteration of the per-target loop are modelled as a
transition system.  A state records the two channels, the wait group, where
each worker goroutine stands, and how far the main goroutine has come; an
event lets one goroutine take its next step, and is disabled (`none`) when
that goroutine is blocked.  A schedule is a list of events. -/

/-- The local struct `Job` of `main`. -/
structure Job where
  baseURL : GoString
  dir : GoString
deriving DecidableEq, Repr

/-- Where one worker goroutine stands: blocked in `for job := range jobs`,
inside `scanURL` for a job it has received, or returned (its deferred
`wg.Done()` has run). -/
inductive Worker where
  | idle
  | busy (job : Job)
  | done
deriving DecidableEq, Repr

/-- The state of one target's scan. -/
structure Pool where
  /-- `len(paths)`, the capacity of both channels -/
  capacity : Nat
  /-- the normalized `baseURL` of this iteration -/
  baseURL : GoString
  /-- iterations of `for t := 0; t < threads; t++` still to run -/
  toSpawn : Nat
  /-- the paths the loop `for _, dir := range paths` has not sent yet -/
  pending : List GoString
  /-- the buffer of the channel `jobs` -/
  jobs : List Job
  /-- whether `close(jobs)` has run -/
  jobsClosed : Bool
  /-- the worker goroutines started so far -/
  workers : List Worker
  /-- the counter of the wait group `wg` -/
  wg : Nat
  /-- whether the goroutine `wg.Wait(); close(results)` has been started -/
  closerStarted : Bool
  /-- the buffer of the channel `results` -/
  results : List ScanResult
  /-- whether `close(results)` has run -/
  resultsClosed : Bool
  /-- the values `for result := range results` has received, in order -/
  received : List ScanResult
  /-- whether `for result := range results` has ended -/
  collected : Bool
  /-- whether some goroutine has sent on a closed channel -/
  panicked : Bool
deriving DecidableEq, Repr

/-- The state when the main goroutine has made both channels and is about to
enter `for t := 0; t < threads; t++`. -/
def Pool.start (baseURL : GoString) (paths : List GoString) (threads : Int) : Pool :=
  { capacity := paths.length, baseURL := baseURL, toSpawn := threads.toNat,
    pending := paths, jobs := [], jobsClosed := false, workers := [], wg := 0,
    closerStarted := false, results := [], resultsClosed := false, received := [],
    collected := false, panicked := false }

/-- A step of a goroutine. -/
inductive Event where
  /-- the main goroutine -/
  | main
  /-- worker `i`; when the step is a call of `scanURL`, `httpGet` and `elapsed`
  are what the network and the clock answer -/
  | worker (i : Nat) (httpGet : GoString → GetOutcome) (elapsed : Nat)
  /-- the goroutine `wg.Wait(); close(results)` -/
  | closer

/-- The next step of the main goroutine: start a worker (`wg.Add(1); go ...`),
send a job, `close(jobs)`, start the closing goroutine, receive a result, or
leave the collection loop when `results` is closed and drained. -/
def Pool.mainStep (p : Pool) : Option Pool :=
  if p.collected then none
  else if 0 < p.toSpawn then
    some { p with toSpawn := p.toSpawn - 1, wg := p.wg + 1, workers := p.workers ++ [.idle] }
  else
    match p.pending with
    | dir :: rest =>
      if p.jobs.length < p.capacity then
        some { p with pending := rest, jobs := p.jobs ++ [{ baseURL := p.baseURL, dir := dir }] }
      else none
    | [] =>
      if !p.jobsClosed then some { p with jobsClosed := true }
      else if !p.closerStarted then some { p with closerStarted := true }
      else
        match p.results with
        | result :: rest => some { p with results := rest, received := p.received ++ [result] }
        | [] => if p.resultsClosed then some { p with collected := true } else none

/-- The next step of worker `i`: receive a job, run `scanURL` on the job it
holds, or return because `jobs` is closed and drained. -/
def Pool.workerStep (p : Pool) (i : Nat) (httpGet : GoString → GetOutcome) (elapsed : Nat) :
    Option Pool :=
  match p.workers[i]? with
  | none => none
  | some .done => none
  | some .idle =>
    match p.jobs with
    | job :: rest => some { p with jobs := rest, workers := p.workers.set i (.busy job) }
    | [] =>
      if p.jobsClosed then some { p with workers := p.workers.set i .done, wg := p.wg - 1 }
      else none
  | some (.busy job) =>
    if p.resultsClosed then some { p with panicked := true }
    else if p.results.length < p.capacity then
      some { p with results := scanURL httpGet elapsed job.baseURL job.dir p.results,
                    workers := p.workers.set i .idle }
    else none

/-- The step of the closing goroutine: `wg.Wait()` returns once the counter is
zero, then `close(results)`. -/
def Pool.closerStep (p : Pool) : Option Pool :=
  if p.closerStarted && p.wg == 0 && !p.resultsClosed then some { p with resultsClosed := true }
  else none

/-- One step of the pool. -/
def Pool.step (p : Pool) : Event → Option Pool
  | .main => p.mainStep
  | .worker i httpGet elapsed => p.workerStep i httpGet elapsed
  | .closer => p.closerStep

/-- Running a schedule; `none` when it asks a blocked goroutine to move. -/
def Pool.run (p : Pool) : List Event → Option Pool
  | [] => some p
  | e :: es =>
    match p.step e with
    | none => none
    | some q => q.run es

/-- One for a worker inside `scanURL`. -/
@[simp]
def busyWeight : Worker → Nat
  | .busy _ => 1
  | _ => 0

/-- One for a worker that has not returned. -/
@[simp]
def liveWeight : Worker → Nat
  | .done => 0
  | _ => 1

/-- The number of steps a worker can take without receiving a job. -/
@[simp]
def fuelWeight : Worker → Nat
  | .idle => 1
  | .busy _ => 3
  | .done => 0

/-- The number of workers inside `scanURL`. -/
def busyCount (ws : List Worker) : Nat := (ws.map busyWeight).sum

/-- The number of workers that have not returned. -/
def liveCount (ws : List Worker) : Nat := (ws.map liveWeight).sum

/-- A bound on the number of steps the pool can still take. -/
def Pool.fuel (p : Pool) : Nat :=
  2 * p.toSpawn + 4 * p.pending.length + 3 * p.jobs.length
    + (p.workers.map fuelWeight).sum
    + p.results.length
    + (if p.jobsClosed then 0 else 1) + (if p.closerStarted then 0 else 1)
    + (if p.resultsClosed then 0 else 1) + (if p.collected then 0 else 1)

/-- The URL `scanURL` composes for a job. -/
def jobURL (job : Job) : GoString := job.baseURL ++ TrimPrefix job.dir ['/']

/-- How often the URL `u` occurs in a list of URLs. -/
def occurrences (u : GoString) (urls : List GoString) : Nat :=
  @List.count GoString instBEqOfDecidableEq u urls

/-- One when the worker is inside `scanURL` for a job whose URL is `u`. -/
def busyAt (u : GoString) : Worker → Nat
  | .busy job => if jobURL job = u then 1 else 0
  | _ => 0

/-- How often the URL `u` occurs in the pool: among the paths still to send,
in the channel `jobs`, in the hands of a worker, in the channel `results`, or
among the results received. -/
def Pool.tally (p : Pool) (u : GoString) : Nat :=
  occurrences u (p.pending.map (fun dir => jobURL { baseURL := p.baseURL, dir := dir }))
    + occurrences u (p.jobs.map jobURL)
    + (p.workers.map (busyAt u)).sum
    + occurrences u (p.results.map (fun r => r.URL))
    + occurrences u (p.received.map (fun r => r.URL))

/-- The facts that hold in every state the pool of a target with `n` paths and
`threads` workers to start can reach. -/
structure Pool.Inv (n threads : Nat) (p : Pool) : Prop where
  cap : p.capacity = n
  conserve : p.pending.length + p.jobs.length + busyCount p.workers
      + p.results.length + p.received.length = n
  spawned : p.workers.length + p.toSpawn = threads
  wgLive : p.wg = liveCount p.workers
  closedJobs : p.jobsClosed = true → p.toSpawn = 0 ∧ p.pending = []
  closerAfter : p.closerStarted = true → p.jobsClosed = true
  closedResults : p.resultsClosed = true → p.closerStarted = true ∧ p.wg = 0
  doneWorker : Worker.done ∈ p.workers → p.jobsClosed = true ∧ p.jobs = []
  collectedAfter : p.collected = true → p.resultsClosed = true ∧ p.results = []
  noPanic : p.panicked = false

/-! ## URL composition as the specification words it -/

/-- The base URL made to end with a slash: one is appended exactly when the
last character is not already a slash. -/
def withTrailingSlash (baseURL : GoString) : GoString :=
  if baseURL.getLast? = some '/' then baseURL else baseURL ++ ['/']

/-- The path entry with one leading slash removed. -/
def withoutLeadingSlash : GoString → GoString
  | '/' :: rest => rest
  | dir => dir

/-! ## Sample values -/

/-- A network that answers 200 at `http://h/a` and fails elsewhere. -/
def sampleNet (url : GoString) : GetOutcome :=
  if url = "http://h/a".toList then .response 200 else .transportError

/-- A dictionary file that exists and reads without error. -/
def sampleDict : DictFile :=
  { notExist := false, mkdirFails := false, createFails := false, openFails := false,
    lines := [" admin ".toList, "# comment".toList, [], "/x".toList], scanFails := false }

/-- A network that answers 200 everywhere. -/
def sampleOk : GoString → GetOutcome := fun _ => .response 200

/-- A schedule for two paths and two workers in which both workers hold a job
at the same time and the second one sends its result first. -/
def sampleSchedule : List Event :=
  [.main, .main, .main, .worker 0 sampleOk 3, .main, .worker 1 sampleOk 4, .main,
   .worker 1 sampleOk 4, .worker 0 sampleOk 3, .main, .worker 0 sampleOk 3, .main,
   .worker 1 sampleOk 4, .closer, .main, .main]

/-- A schedule for a pool that starts no worker. -/
def sampleIdleSchedule : List Event :=
  [.main, .main, .main, .main, .closer, .main]

/-- A sample result with status 200. -/
def sample200 : ScanResult := { URL := "http://h/admin".toList, StatusCode := 200, Time := 7 }

/-- A sample result with status 404. -/
def sample404 : ScanResult := { URL := "http://h/login".toList, StatusCode := 404, Time := 8 }

/-- A sample result with status 301. -/
def sample301 : ScanResult := { URL := "http://h/x".toList, StatusCode := 301, Time := 9 }

/-! ## Lemmas on the filter -/

theorem contains_iff (xs : List Int) (x : Int) : contains xs x = true ↔ x ∈ xs := by
  induction xs with
  | nil => simp [contains]
  | cons a as ih =>
    simp only [contains, List.mem_cons]
    by_cases h : a = x
    · simp [h]
    · simp only [h, if_false, ih]
      constructor
      · intro hx; exact Or.inr hx
      · rintro (hx | hx)
        · exact absurd hx.symm h
        · exact hx

theorem contains_eq_decide (xs : List Int) (x : Int) : contains xs x = decide (x ∈ xs) := by
  by_cases h : x ∈ xs
  · simp [h, (contains_iff xs x).mpr h]
  · have : contains xs x = false := by
      cases hc : contains xs x with
      | false => rfl
      | true => exact absurd ((contains_iff xs x).mp hc) h
    simp [h, this]

theorem collectBody_eq (A D : List Int) (st : CollectState) (r : ScanResult) :
    collectBody A D st r =
      { urlResults := st.urlResults ++ (if passesFilter A D r then [r] else []),
        bar := st.bar + 1 } := by
  unfold collectBody passesFilter
  rw [contains_eq_decide, contains_eq_decide]
  by_cases hD : r.StatusCode ∈ D
  · simp [hD]
  · by_cases hA : A = []
    · simp [hD, hA]
    · by_cases hm : r.StatusCode ∈ A
      · simp [hD, hA, hm]
      · simp [hD, hA, hm]

theorem foldl_collectBody (A D : List Int) (rs : List ScanResult) (st : CollectState) :
    rs.foldl (collectBody A D) st =
      { urlResults := st.urlResults ++ rs.filter (passesFilter A D),
        bar := st.bar + rs.length } := by
  induction rs generalizing st with
  | nil => simp
  | cons r rs ih =>
    rw [List.foldl_cons, ih, collectBody_eq]
    by_cases h : passesFilter A D r = true
    · simp [h, List.filter_cons, Nat.add_comm, Nat.add_left_comm]
    · simp [h, List.filter_cons, Nat.add_comm, Nat.add_left_comm]

theorem collectLoop_eq (A D : List Int) (rs : List ScanResult) :
    collectLoop A D rs =
      { urlResults := rs.filter (passesFilter A D), bar := rs.length } := by
  unfold collectLoop
  rw [foldl_collectBody]
  simp






/-! ## Lemmas on the worker pool -/

theorem sum_map_set (f : Worker → Nat) (ws : List Worker) (i : Nat) (w v : Worker)
    (h : ws[i]? = some w) :
    ((ws.set i v).map f).sum + f w = (ws.map f).sum + f v := by
  induction ws generalizing i with
  | nil => simp at h
  | cons a as ih =>
    cases i with
    | zero =>
      simp only [List.getElem?_cons_zero, Option.some.injEq] at h
      subst h
      simp only [List.set_cons_zero, List.map_cons, List.sum_cons]
      omega
    | succ k =>
      simp only [List.getElem?_cons_succ] at h
      have := ih k h
      simp only [List.set_cons_succ, List.map_cons, List.sum_cons]
      omega

theorem liveCount_eq_zero (ws : List Worker) (h : liveCount ws = 0) :
    ∀ w ∈ ws, w = Worker.done := by
  induction ws with
  | nil => simp
  | cons a as ih =>
    unfold liveCount at h ih
    simp only [List.map_cons, List.sum_cons] at h
    intro w hw
    rcases List.mem_cons.mp hw with rfl | hw
    · cases w <;> simp_all
    · exact ih (by omega) w hw

theorem liveCount_pos (ws : List Worker) (h : 0 < liveCount ws) :
    ∃ (i : Nat) (w : Worker), ws[i]? = some w ∧ w ≠ Worker.done := by
  induction ws with
  | nil => simp [liveCount] at h
  | cons a as ih =>
    by_cases ha : a = Worker.done
    · subst ha
      have h2 : 0 < liveCount as := by
        unfold liveCount at h ⊢
        simpa using h
      obtain ⟨i, w, hi, hw⟩ := ih h2
      exact ⟨i + 1, w, by simpa using hi, hw⟩
    · exact ⟨0, a, by simp, ha⟩

theorem busyCount_of_all_done (ws : List Worker) (h : ∀ w ∈ ws, w = Worker.done) :
    busyCount ws = 0 := by
  induction ws with
  | nil => rfl
  | cons a as ih =>
    have ha : a = Worker.done := h a (List.mem_cons_self _ _)
    have := ih (fun w hw => h w (List.mem_cons_of_mem _ hw))
    unfold busyCount at this ⊢
    simp [ha, this]

theorem Pool.start_inv (baseURL : GoString) (paths : List GoString) (threads : Int) :
    (Pool.start baseURL paths threads).Inv paths.length threads.toNat := by
  constructor <;> simp [Pool.start, busyCount, liveCount]

theorem Pool.mainStep_inv {n threads : Nat} {p q : Pool} (hp : p.Inv n threads)
    (h : p.mainStep = some q) : q.Inv n threads := by
  obtain ⟨cap, conserve, spawned, wgLive, closedJobs, closerAfter, closedResults,
    doneWorker, collectedAfter, noPanic⟩ := hp
  unfold Pool.mainStep at h
  split at h
  · exact absurd h (by simp)
  rename_i hcol
  split at h
  · -- wg.Add(1); go worker
    rename_i hsp
    simp only [Option.some.injEq] at h
    subst h
    have hjc : p.jobsClosed = false := by
      cases hj : p.jobsClosed with
      | false => rfl
      | true => have := (closedJobs hj).1; omega
    have hcs : p.closerStarted = false := by
      cases hc : p.closerStarted with
      | false => rfl
      | true => rw [closerAfter hc] at hjc; exact absurd hjc (by simp)
    have hrc : p.resultsClosed = false := by
      cases hc : p.resultsClosed with
      | false => rfl
      | true => rw [(closedResults hc).1] at hcs; exact absurd hcs (by simp)
    constructor
    · exact cap
    · simpa [busyCount] using conserve
    · simp only [List.length_append, List.length_singleton]; omega
    · simp only [liveCount, List.map_append, List.sum_append] at wgLive ⊢
      simp [wgLive]
    · intro hj; simp [hjc] at hj
    · intro hc; simp [hcs] at hc
    · intro hc; simp [hrc] at hc
    · intro hd
      simp only [List.mem_append, List.mem_singleton] at hd
      rcases hd with hd | hd
      · exact doneWorker hd
      · exact absurd hd (by simp)
    · intro hc; simp [hcol] at hc
    · exact noPanic
  rename_i hsp
  have hsp0 : p.toSpawn = 0 := by omega
  split at h
  · -- jobs <- Job{...}
    rename_i dir rest hpend
    split at h
    · rename_i hlen
      simp only [Option.some.injEq] at h
      subst h
      have hjc : p.jobsClosed = false := by
        cases hj : p.jobsClosed with
        | false => rfl
        | true => have := (closedJobs hj).2; simp [hpend] at this
      have hcs : p.closerStarted = false := by
        cases hc : p.closerStarted with
        | false => rfl
        | true => rw [closerAfter hc] at hjc; exact absurd hjc (by simp)
      have hrc : p.resultsClosed = false := by
        cases hc : p.resultsClosed with
        | false => rfl
        | true => rw [(closedResults hc).1] at hcs; exact absurd hcs (by simp)
      constructor
      · exact cap
      · simp only [hpend, List.length_cons, List.length_append, List.length_nil]
          at conserve ⊢
        omega
      · exact spawned
      · exact wgLive
      · intro hj; simp [hjc] at hj
      · intro hc; simp [hcs] at hc
      · intro hc; simp [hrc] at hc
      · intro hd
        have := (doneWorker hd).1
        simp [hjc] at this
      · intro hc; simp [hcol] at hc
      · exact noPanic
    · exact absurd h (by simp)
  rename_i hpend
  split at h
  · -- close(jobs)
    rename_i hjc
    simp only [Option.some.injEq] at h
    subst h
    have hjc : p.jobsClosed = false := by simpa using hjc
    have hcs : p.closerStarted = false := by
      cases hc : p.closerStarted with
      | false => rfl
      | true => rw [closerAfter hc] at hjc; exact absurd hjc (by simp)
    have hrc : p.resultsClosed = false := by
      cases hc : p.resultsClosed with
      | false => rfl
      | true => rw [(closedResults hc).1] at hcs; exact absurd hcs (by simp)
    constructor
    · exact cap
    · exact conserve
    · exact spawned
    · exact wgLive
    · intro _; exact ⟨hsp0, hpend⟩
    · intro _; rfl
    · intro hc; simp [hrc] at hc
    · intro hd
      have := (doneWorker hd).1
      simp [hjc] at this
    · intro hc; simp [hcol] at hc
    · exact noPanic
  rename_i hjc
  have hjc : p.jobsClosed = true := by simpa using hjc
  split at h
  · -- go func() { wg.Wait(); close(results) }()
    rename_i hcs
    simp only [Option.some.injEq] at h
    subst h
    have hcs : p.closerStarted = false := by simpa using hcs
    have hrc : p.resultsClosed = false := by
      cases hc : p.resultsClosed with
      | false => rfl
      | true => rw [(closedResults hc).1] at hcs; exact absurd hcs (by simp)
    constructor
    · exact cap
    · exact conserve
    · exact spawned
    · exact wgLive
    · exact closedJobs
    · intro _; exact hjc
    · intro hc; simp [hrc] at hc
    · exact doneWorker
    · intro hc; simp [hcol] at hc
    · exact noPanic
  rename_i hcs
  split at h
  · -- result := <-results
    rename_i result rest hres
    simp only [Option.some.injEq] at h
    subst h
    constructor
    · exact cap
    · simp only [hres, List.length_cons, List.length_append, List.length_nil]
        at conserve ⊢
      omega
    · exact spawned
    · exact wgLive
    · exact closedJobs
    · exact closerAfter
    · exact closedResults
    · exact doneWorker
    · intro hc; simp [hcol] at hc
    · exact noPanic
  rename_i hres
  split at h
  · -- the range loop ends
    rename_i hrc
    simp only [Option.some.injEq] at h
    subst h
    constructor
    · exact cap
    · exact conserve
    · exact spawned
    · exact wgLive
    · exact closedJobs
    · exact closerAfter
    · exact closedResults
    · exact doneWorker
    · intro _; exact ⟨hrc, hres⟩
    · exact noPanic
  · exact absurd h (by simp)

theorem scanURL_length (httpGet : GoString → GetOutcome) (elapsed : Nat)
    (baseURL dir : GoString) (results : List ScanResult) :
    (scanURL httpGet elapsed baseURL dir results).length = results.length + 1 := by
  unfold scanURL
  simp only []
  split <;> simp

theorem scanURL_push (httpGet : GoString → GetOutcome) (elapsed : Nat)
    (baseURL dir : GoString) (results : List ScanResult) :
    ∃ r, scanURL httpGet elapsed baseURL dir results = results ++ [r]
      ∧ r.URL = baseURL ++ TrimPrefix dir ['/']
      ∧ r.Time = elapsed
      ∧ (httpGet r.URL = .transportError → r.StatusCode = 0)
      ∧ (∀ c, httpGet r.URL = .response c → r.StatusCode = c) := by
  unfold scanURL
  simp only []
  split
  · rename_i h
    exact ⟨_, rfl, rfl, rfl, fun _ => rfl, fun c hc => by rw [h] at hc; exact absurd hc (by simp)⟩
  · rename_i code h
    refine ⟨_, rfl, rfl, rfl, fun hc => ?_, fun c hc => ?_⟩
    · rw [h] at hc; exact absurd hc (by simp)
    · rw [h] at hc
      exact GetOutcome.response.inj hc

theorem busyCount_set (ws : List Worker) (i : Nat) (w v : Worker)
    (h : ws[i]? = some w) :
    busyCount (ws.set i v) + busyWeight w = busyCount ws + busyWeight v :=
  sum_map_set busyWeight ws i w v h

theorem liveCount_set (ws : List Worker) (i : Nat) (w v : Worker)
    (h : ws[i]? = some w) :
    liveCount (ws.set i v) + liveWeight w = liveCount ws + liveWeight v :=
  sum_map_set liveWeight ws i w v h

theorem Pool.workerStep_inv {n threads : Nat} {p q : Pool} (hp : p.Inv n threads)
    (i : Nat) (httpGet : GoString → GetOutcome) (elapsed : Nat)
    (h : p.workerStep i httpGet elapsed = some q) : q.Inv n threads := by
  obtain ⟨cap, conserve, spawned, wgLive, closedJobs, closerAfter, closedResults,
    doneWorker, collectedAfter, noPanic⟩ := hp
  unfold Pool.workerStep at h
  split at h
  · exact absurd h (by simp)
  · exact absurd h (by simp)
  · -- an idle worker
    rename_i hw
    have hb := busyCount_set p.workers i Worker.idle
    have hl := liveCount_set p.workers i Worker.idle
    split at h
    · -- job := <-jobs
      rename_i job rest hjobs
      simp only [Option.some.injEq] at h
      subst h
      have hb := hb (.busy job) hw
      have hl := hl (.busy job) hw
      simp only [busyWeight, liveWeight] at hb hl
      constructor
      · exact cap
      · simp only [hjobs, List.length_cons] at conserve ⊢
        omega
      · simpa using spawned
      · simp only; omega
      · exact closedJobs
      · exact closerAfter
      · exact closedResults
      · intro hd
        rcases List.mem_or_eq_of_mem_set hd with hd | hd
        · have := (doneWorker hd).2
          simp [hjobs] at this
        · exact absurd hd (by simp)
      · exact collectedAfter
      · exact noPanic
    · rename_i hjobs
      split at h
      · -- jobs is closed and empty: the worker returns
        rename_i hjc
        simp only [Option.some.injEq] at h
        subst h
        have hb := hb .done hw
        have hl := hl .done hw
        simp only [busyWeight, liveWeight] at hb hl
        constructor
        · exact cap
        · simp only at conserve ⊢
          omega
        · simpa using spawned
        · simp only; omega
        · exact closedJobs
        · exact closerAfter
        · intro hc
          have := closedResults hc
          exact ⟨this.1, by simp only; omega⟩
        · intro _; exact ⟨hjc, hjobs⟩
        · exact collectedAfter
        · exact noPanic
      · exact absurd h (by simp)
  · -- a worker inside scanURL
    rename_i job hw
    have hb := busyCount_set p.workers i (Worker.busy job) .idle hw
    have hl := liveCount_set p.workers i (Worker.busy job) .idle hw
    simp only [busyWeight, liveWeight] at hb hl
    split at h
    · -- results is closed: impossible
      rename_i hrc
      have hwg := (closedResults hrc).2
      rw [wgLive] at hwg
      have hall := liveCount_eq_zero p.workers hwg (Worker.busy job)
        (List.getElem?_mem hw)
      exact absurd hall (by simp)
    · rename_i hrc
      split at h
      · -- results <- ScanResult{...}
        simp only [Option.some.injEq] at h
        subst h
        constructor
        · exact cap
        · simp only [scanURL_length] at conserve ⊢
          omega
        · simpa using spawned
        · simp only; omega
        · exact closedJobs
        · exact closerAfter
        · intro hc; exact absurd hc hrc
        · intro hd
          rcases List.mem_or_eq_of_mem_set hd with hd | hd
          · exact doneWorker hd
          · exact absurd hd (by simp)
        · intro hc
          exact absurd (collectedAfter hc).1 hrc
        · exact noPanic
      · exact absurd h (by simp)

theorem Pool.closerStep_inv {n threads : Nat} {p q : Pool} (hp : p.Inv n threads)
    (h : p.closerStep = some q) : q.Inv n threads := by
  obtain ⟨cap, conserve, spawned, wgLive, closedJobs, closerAfter, closedResults,
    doneWorker, collectedAfter, noPanic⟩ := hp
  unfold Pool.closerStep at h
  split at h
  · rename_i hc
    simp only [Bool.and_eq_true, beq_iff_eq, Bool.not_eq_true, Bool.not_eq_eq_eq_not] at hc
    simp only [Option.some.injEq] at h
    subst h
    constructor
    · exact cap
    · exact conserve
    · exact spawned
    · exact wgLive
    · exact closedJobs
    · exact closerAfter
    · intro _; exact ⟨hc.1.1, hc.1.2⟩
    · exact doneWorker
    · intro hcol
      have := (collectedAfter hcol).1
      simp [this] at hc
    · exact noPanic
  · exact absurd h (by simp)

theorem Pool.step_inv {n threads : Nat} {p q : Pool} (hp : p.Inv n threads) (e : Event)
    (h : p.step e = some q) : q.Inv n threads := by
  cases e with
  | main => exact Pool.mainStep_inv hp h
  | worker i httpGet elapsed => exact Pool.workerStep_inv hp i httpGet elapsed h
  | closer => exact Pool.closerStep_inv hp h

theorem Pool.run_inv {n threads : Nat} (es : List Event) {p q : Pool} (hp : p.Inv n threads)
    (h : p.run es = some q) : q.Inv n threads := by
  induction es generalizing p with
  | nil =>
    simp only [Pool.run, Option.some.injEq] at h
    subst h
    exact hp
  | cons e es ih =>
    simp only [Pool.run] at h
    split at h
    · exact absurd h (by simp)
    · rename_i r hr
      exact ih (Pool.step_inv hp e hr) h

theorem Pool.mainStep_fuel {p q : Pool} (h : p.mainStep = some q) : q.fuel < p.fuel := by
  unfold Pool.mainStep at h
  split at h
  · exact absurd h (by simp)
  rename_i hcol
  have hcol : p.collected = false := by simpa using hcol
  split at h
  · rename_i hsp
    simp only [Option.some.injEq] at h
    subst h
    simp only [Pool.fuel, List.map_append, List.sum_append, List.map_cons, List.map_nil,
      List.sum_cons, List.sum_nil, fuelWeight]
    omega
  split at h
  · rename_i dir rest hpend
    split at h
    · simp only [Option.some.injEq] at h
      subst h
      simp only [Pool.fuel, hpend, List.length_cons, List.length_append, List.length_nil]
      omega
    · exact absurd h (by simp)
  split at h
  · rename_i hjc
    have hjc : p.jobsClosed = false := by simpa using hjc
    simp only [Option.some.injEq] at h
    subst h
    simp only [Pool.fuel, hjc]
    simp
  split at h
  · rename_i hcs
    have hcs : p.closerStarted = false := by simpa using hcs
    simp only [Option.some.injEq] at h
    subst h
    simp only [Pool.fuel, hcs]
    simp
  split at h
  · rename_i result rest hres
    simp only [Option.some.injEq] at h
    subst h
    simp only [Pool.fuel, hres, List.length_cons]
    omega
  split at h
  · simp only [Option.some.injEq] at h
    subst h
    simp only [Pool.fuel, hcol]
    simp
  · exact absurd h (by simp)

theorem Pool.workerStep_fuel {n threads : Nat} {p q : Pool} (hp : p.Inv n threads)
    (i : Nat) (httpGet : GoString → GetOutcome) (elapsed : Nat)
    (h : p.workerStep i httpGet elapsed = some q) : q.fuel < p.fuel := by
  unfold Pool.workerStep at h
  split at h
  · exact absurd h (by simp)
  · exact absurd h (by simp)
  · rename_i hw
    split at h
    · rename_i job rest hjobs
      simp only [Option.some.injEq] at h
      subst h
      have hf := sum_map_set fuelWeight p.workers i .idle (.busy job) hw
      simp only [fuelWeight] at hf
      simp only [Pool.fuel, hjobs, List.length_cons]
      omega
    · split at h
      · simp only [Option.some.injEq] at h
        subst h
        have hf := sum_map_set fuelWeight p.workers i .idle .done hw
        simp only [fuelWeight] at hf
        simp only [Pool.fuel]
        omega
      · exact absurd h (by simp)
  · rename_i job hw
    split at h
    · rename_i hrc
      have hwg := (hp.closedResults hrc).2
      rw [hp.wgLive] at hwg
      have hall := liveCount_eq_zero p.workers hwg (Worker.busy job) (List.getElem?_mem hw)
      exact absurd hall (by simp)
    · split at h
      · simp only [Option.some.injEq] at h
        subst h
        have hf := sum_map_set fuelWeight p.workers i (.busy job) .idle hw
        simp only [fuelWeight] at hf
        simp only [Pool.fuel, scanURL_length]
        omega
      · exact absurd h (by simp)

theorem Pool.closerStep_fuel {p q : Pool} (h : p.closerStep = some q) : q.fuel < p.fuel := by
  unfold Pool.closerStep at h
  split at h
  · rename_i hc
    simp only [Bool.and_eq_true, beq_iff_eq, Bool.not_eq_true, Bool.not_eq_eq_eq_not] at hc
    simp only [Option.some.injEq] at h
    subst h
    simp only [Pool.fuel, hc.2]
    simp
  · exact absurd h (by simp)

theorem Pool.step_fuel {n threads : Nat} {p q : Pool} (hp : p.Inv n threads) (e : Event)
    (h : p.step e = some q) : q.fuel < p.fuel := by
  cases e with
  | main => exact Pool.mainStep_fuel h
  | worker i httpGet elapsed => exact Pool.workerStep_fuel hp i httpGet elapsed h
  | closer => exact Pool.closerStep_fuel h

theorem Pool.run_fuel {n threads : Nat} (es : List Event) {p q : Pool} (hp : p.Inv n threads)
    (h : p.run es = some q) : es.length + q.fuel ≤ p.fuel := by
  induction es generalizing p with
  | nil =>
    simp only [Pool.run, Option.some.injEq] at h
    subst h
    simp
  | cons e es ih =>
    simp only [Pool.run] at h
    split at h
    · exact absurd h (by simp)
    · rename_i r hr
      have h1 := ih (Pool.step_inv hp e hr) h
      have h2 := Pool.step_fuel hp e hr
      simp only [List.length_cons]
      omega

theorem Pool.progress {n threads : Nat} {p : Pool} (hp : p.Inv n threads)
    (hcol : p.collected = false) (httpGet : GoString → GetOutcome) (elapsed : Nat) :
    ∃ e q, p.step e = some q := by
  by_cases hsp : 0 < p.toSpawn
  · exact ⟨.main, _, by simp only [Pool.step, Pool.mainStep, hcol, hsp]; simp; rfl⟩
  cases hpend : p.pending with
  | cons dir rest =>
    have hlen : p.jobs.length < p.capacity := by
      have := hp.conserve
      rw [hpend, List.length_cons] at this
      rw [hp.cap]
      omega
    exact ⟨.main, _, by simp only [Pool.step, Pool.mainStep, hcol, hsp, hpend, hlen]; simp; rfl⟩
  | nil =>
    cases hjc : p.jobsClosed with
    | false =>
      exact ⟨.main, _, by simp only [Pool.step, Pool.mainStep, hcol, hsp, hpend, hjc]; simp; rfl⟩
    | true =>
      cases hcs : p.closerStarted with
      | false =>
        exact ⟨.main, _, by
          simp only [Pool.step, Pool.mainStep, hcol, hsp, hpend, hjc, hcs]; simp; rfl⟩
      | true =>
        cases hres : p.results with
        | cons result rest =>
          exact ⟨.main, _, by
            simp only [Pool.step, Pool.mainStep, hcol, hsp, hpend, hjc, hcs, hres]; simp; rfl⟩
        | nil =>
          cases hrc : p.resultsClosed with
          | true =>
            exact ⟨.main, _, by
              simp only [Pool.step, Pool.mainStep, hcol, hsp, hpend, hjc, hcs, hres, hrc]
              simp; rfl⟩
          | false =>
            by_cases hwg : p.wg = 0
            · exact ⟨.closer, _, by
                simp only [Pool.step, Pool.closerStep, hcs, hwg, hrc]; simp; rfl⟩
            · have hlive : 0 < liveCount p.workers := by
                rw [← hp.wgLive]; omega
              obtain ⟨i, w, hi, hw⟩ := liveCount_pos p.workers hlive
              cases w with
              | done => exact absurd rfl hw
              | idle =>
                cases hjobs : p.jobs with
                | cons job rest =>
                  exact ⟨.worker i httpGet elapsed, _, by
                    simp only [Pool.step, Pool.workerStep, hi, hjobs]; rfl⟩
                | nil =>
                  exact ⟨.worker i httpGet elapsed, _, by
                    simp only [Pool.step, Pool.workerStep, hi, hjobs, hjc]; simp; rfl⟩
              | busy job =>
                have hb := busyCount_set p.workers i (Worker.busy job) .idle hi
                simp only [busyWeight] at hb
                have hlen : p.results.length < p.capacity := by
                  have := hp.conserve
                  rw [hres, List.length_nil] at this ⊢
                  rw [hp.cap]
                  omega
                exact ⟨.worker i httpGet elapsed, _, by
                  simp only [Pool.step, Pool.workerStep, hi, hrc, hlen]; simp; rfl⟩

theorem Pool.completes_aux (n threads : Nat) (k : Nat) :
    ∀ p : Pool, p.Inv n threads → p.fuel ≤ k →
      ∃ es q, p.run es = some q ∧ q.collected = true := by
  induction k with
  | zero =>
    intro p hp hk
    cases hcol : p.collected with
    | true => exact ⟨[], p, rfl, hcol⟩
    | false =>
      simp only [Pool.fuel, hcol] at hk
      simp at hk
  | succ k ih =>
    intro p hp hk
    cases hcol : p.collected with
    | true => exact ⟨[], p, rfl, hcol⟩
    | false =>
      obtain ⟨e, r, hstep⟩ := Pool.progress hp hcol (fun _ => .transportError) 0
      have hlt := Pool.step_fuel hp e hstep
      obtain ⟨es, q, hrun, hq⟩ := ih r (Pool.step_inv hp e hstep) (by omega)
      exact ⟨e :: es, q, by simp only [Pool.run, hstep, hrun], hq⟩

theorem Pool.completes {n threads : Nat} {p : Pool} (hp : p.Inv n threads) :
    ∃ es q, p.run es = some q ∧ q.collected = true :=
  Pool.completes_aux n threads p.fuel p hp (Nat.le_refl _)

theorem Pool.drained {n threads : Nat} {p : Pool} (hp : p.Inv n threads)
    (hthreads : 1 ≤ threads) (hrc : p.resultsClosed = true) :
    p.pending = [] ∧ p.jobs = [] ∧ ∀ w ∈ p.workers, w = Worker.done := by
  obtain ⟨hcs, hwg⟩ := hp.closedResults hrc
  have hjc := hp.closerAfter hcs
  obtain ⟨hsp, hpend⟩ := hp.closedJobs hjc
  have hall := liveCount_eq_zero p.workers (by rw [← hp.wgLive]; exact hwg)
  have hlen : 1 ≤ p.workers.length := by
    have := hp.spawned
    omega
  have hdone : Worker.done ∈ p.workers := by
    cases hws : p.workers with
    | nil => rw [hws] at hlen; simp at hlen
    | cons w ws =>
      have := hall w (by rw [hws]; exact List.mem_cons_self _ _)
      rw [this]
      exact List.mem_cons_self _ _
  exact ⟨hpend, (hp.doneWorker hdone).2, hall⟩

theorem Pool.received_all {n threads : Nat} {p : Pool} (hp : p.Inv n threads)
    (hthreads : 1 ≤ threads) (hrc : p.resultsClosed = true) :
    p.results.length + p.received.length = n := by
  obtain ⟨hpend, hjobs, hall⟩ := Pool.drained hp hthreads hrc
  have hbusy := busyCount_of_all_done p.workers hall
  have := hp.conserve
  rw [hpend, hjobs, hbusy] at this
  simpa using this

theorem busyAt_of_all_done (u : GoString) (ws : List Worker)
    (h : ∀ w ∈ ws, w = Worker.done) : (ws.map (busyAt u)).sum = 0 := by
  induction ws with
  | nil => rfl
  | cons a as ih =>
    have ha : a = Worker.done := h a (List.mem_cons_self _ _)
    have := ih (fun w hw => h w (List.mem_cons_of_mem _ hw))
    simp [ha, this, busyAt]

theorem Pool.mainStep_tally {p q : Pool} (u : GoString) (h : p.mainStep = some q) :
    q.tally u = p.tally u := by
  unfold Pool.mainStep at h
  split at h
  · exact absurd h (by simp)
  split at h
  · simp only [Option.some.injEq] at h
    subst h
    simp [Pool.tally, occurrences, busyAt]
  split at h
  · rename_i dir rest hpend
    split at h
    · simp only [Option.some.injEq] at h
      subst h
      simp only [Pool.tally, occurrences, hpend, List.map_cons, List.map_append, List.map_nil,
        List.count_cons, List.count_append, List.count_nil]
      omega
    · exact absurd h (by simp)
  split at h
  · simp only [Option.some.injEq] at h
    subst h
    rfl
  split at h
  · simp only [Option.some.injEq] at h
    subst h
    rfl
  split at h
  · rename_i result rest hres
    simp only [Option.some.injEq] at h
    subst h
    simp only [Pool.tally, occurrences, hres, List.map_cons, List.map_append, List.map_nil,
      List.count_cons, List.count_append, List.count_nil]
    omega
  split at h
  · simp only [Option.some.injEq] at h
    subst h
    rfl
  · exact absurd h (by simp)

theorem Pool.workerStep_tally {p q : Pool} (u : GoString) (i : Nat)
    (httpGet : GoString → GetOutcome) (elapsed : Nat)
    (h : p.workerStep i httpGet elapsed = some q) : q.tally u = p.tally u := by
  unfold Pool.workerStep at h
  split at h
  · exact absurd h (by simp)
  · exact absurd h (by simp)
  · rename_i hw
    split at h
    · rename_i job rest hjobs
      simp only [Option.some.injEq] at h
      subst h
      have hf := sum_map_set (busyAt u) p.workers i .idle (.busy job) hw
      simp only [busyAt] at hf
      simp only [Pool.tally, occurrences, hjobs, List.map_cons, List.count_cons]
      simp only [beq_iff_eq]
      omega
    · split at h
      · simp only [Option.some.injEq] at h
        subst h
        have hf := sum_map_set (busyAt u) p.workers i .idle .done hw
        simp only [busyAt] at hf
        simp only [Pool.tally, occurrences]
        omega
      · exact absurd h (by simp)
  · rename_i job hw
    split at h
    · simp only [Option.some.injEq] at h
      subst h
      rfl
    · split at h
      · simp only [Option.some.injEq] at h
        subst h
        have hf := sum_map_set (busyAt u) p.workers i (.busy job) .idle hw
        simp only [busyAt] at hf
        obtain ⟨r, hr, hurl, _⟩ := scanURL_push httpGet elapsed job.baseURL job.dir p.results
        simp only [Pool.tally, occurrences, hr, List.map_append, List.map_cons, List.map_nil,
          List.count_append, List.count_cons, List.count_nil, hurl, beq_iff_eq]
        unfold jobURL at hf
        omega
      · exact absurd h (by simp)

theorem Pool.step_tally {p q : Pool} (u : GoString) (e : Event) (h : p.step e = some q) :
    q.tally u = p.tally u := by
  cases e with
  | main => exact Pool.mainStep_tally u h
  | worker i httpGet elapsed => exact Pool.workerStep_tally u i httpGet elapsed h
  | closer =>
    simp only [Pool.step, Pool.closerStep] at h
    split at h
    · simp only [Option.some.injEq] at h
      subst h
      rfl
    · exact absurd h (by simp)

theorem Pool.step_baseURL {p q : Pool} (e : Event) (h : p.step e = some q) :
    q.baseURL = p.baseURL := by
  cases e with
  | main =>
    simp only [Pool.step, Pool.mainStep] at h
    repeat' split at h
    all_goals first
      | (simp only [Option.some.injEq] at h; subst h; rfl)
      | cases h
  | worker i httpGet elapsed =>
    simp only [Pool.step, Pool.workerStep] at h
    repeat' split at h
    all_goals first
      | (simp only [Option.some.injEq] at h; subst h; rfl)
      | cases h
  | closer =>
    simp only [Pool.step, Pool.closerStep] at h
    split at h
    · simp only [Option.some.injEq] at h
      subst h
      rfl
    · exact absurd h (by simp)

theorem Pool.run_tally (u : GoString) (es : List Event) {p q : Pool}
    (h : p.run es = some q) : q.tally u = p.tally u ∧ q.baseURL = p.baseURL := by
  induction es generalizing p with
  | nil =>
    simp only [Pool.run, Option.some.injEq] at h
    subst h
    exact ⟨rfl, rfl⟩
  | cons e es ih =>
    simp only [Pool.run] at h
    split at h
    · exact absurd h (by simp)
    · rename_i r hr
      obtain ⟨h1, h2⟩ := ih h
      exact ⟨by rw [h1, Pool.step_tally u e hr], by rw [h2, Pool.step_baseURL e hr]⟩

theorem Pool.received_perm {baseURL : GoString} {paths : List GoString} {threads : Int}
    {es : List Event} {q : Pool} (hthreads : 1 ≤ threads)
    (hrun : (Pool.start baseURL paths threads).run es = some q) (hcol : q.collected = true) :
    (q.received.map (fun r => r.URL)).Perm
      (paths.map (fun dir => baseURL ++ TrimPrefix dir ['/'])) := by
  have hinv := Pool.run_inv es (Pool.start_inv baseURL paths threads) hrun
  obtain ⟨hrc, hres⟩ := hinv.collectedAfter hcol
  obtain ⟨hpend, hjobs, hall⟩ := Pool.drained hinv (by omega) hrc
  rw [List.perm_iff_count]
  intro u
  obtain ⟨ht, _⟩ := Pool.run_tally u es hrun
  have hb := busyAt_of_all_done u q.workers hall
  simp only [Pool.tally, occurrences, hpend, hjobs, hres, hb, Pool.start, List.map_nil,
    List.count_nil, List.sum_nil, Nat.zero_add, Nat.add_zero, jobURL] at ht
  exact ht

/-! ## The status filter: claims -/

/-- C1: for every allow-list `A`, deny-list `D` and sequence `rs` of received
results, the slice `urlResults` the collection loop builds is the subsequence,
in arrival order, of the results whose code is not in `D` and is in `A` when `A`
is not empty; a code in both lists is dropped; and with `A` empty and
`D = [404]` the codes 200, 404, 403 leave 200, 403. -/
theorem collectLoop_output (A D : List Int) (rs : List ScanResult) :
    (collectLoop A D rs).urlResults
        = rs.filter (fun r => decide (r.StatusCode ∉ D ∧ (A = [] ∨ r.StatusCode ∈ A)))
      ∧ (collectLoop A D rs).urlResults.Sublist rs
      ∧ (∀ r ∈ (collectLoop A D rs).urlResults, ¬ (r.StatusCode ∈ A ∧ r.StatusCode ∈ D))
      ∧ (∀ (u1 u2 u3 : GoString) (t1 t2 t3 : Nat),
          (collectLoop [] [404]
              [{ URL := u1, StatusCode := 200, Time := t1 },
               { URL := u2, StatusCode := 404, Time := t2 },
               { URL := u3, StatusCode := 403, Time := t3 }]).urlResults
            = [{ URL := u1, StatusCode := 200, Time := t1 },
               { URL := u3, StatusCode := 403, Time := t3 }]) := by
  have hfilter : (collectLoop A D rs).urlResults
      = rs.filter (fun r => decide (r.StatusCode ∉ D ∧ (A = [] ∨ r.StatusCode ∈ A))) := by
    rw [collectLoop_eq]
    apply List.filter_congr
    intro r _
    simp [passesFilter]
  refine ⟨hfilter, ?_, ?_, ?_⟩
  · rw [hfilter]
    exact List.filter_sublist _
  · intro r hr
    rw [hfilter] at hr
    have := (List.mem_filter.mp hr).2
    simp only [decide_eq_true_eq] at this
    exact fun h => this.1 h.2
  · intro u1 u2 u3 t1 t2 t3
    rw [collectLoop_eq]
    simp [passesFilter, List.filter_cons]

/-- C5: whatever the allow-list and the deny-list, every iteration of the
collection loop calls `bar.Add(1)` exactly once, so after the loop the progress
bar has advanced by the number of results received. -/
theorem collectLoop_bar (A D : List Int) (rs : List ScanResult) :
    (∀ (st : CollectState) (r : ScanResult), (collectBody A D st r).bar = st.bar + 1)
      ∧ (collectLoop A D rs).bar = rs.length := by
  constructor
  · intro st r
    rw [collectBody_eq]
  · rw [collectLoop_eq]

/-- C8: for fixed lists the filter of the collection loop is idempotent, maps a
permutation of the input to a permutation of the output, and depends on the
allow-list and the deny-list only through which codes they hold. -/
theorem collectLoop_algebra (A D B E : List Int) (rs rs2 : List ScanResult)
    (hperm : rs.Perm rs2) (hallow : ∀ c, c ∈ A ↔ c ∈ B) (hdeny : ∀ c, c ∈ D ↔ c ∈ E) :
    (collectLoop A D (collectLoop A D rs).urlResults).urlResults
        = (collectLoop A D rs).urlResults
      ∧ (collectLoop A D rs).urlResults.Perm (collectLoop A D rs2).urlResults
      ∧ (collectLoop A D rs).urlResults = (collectLoop B E rs).urlResults := by
  refine ⟨?_, ?_, ?_⟩
  · simp only [collectLoop_eq, List.filter_filter, Bool.and_self]
  · simp only [collectLoop_eq]
    exact hperm.filter _
  · simp only [collectLoop_eq]
    apply List.filter_congr
    intro r _
    have hnil : A = [] ↔ B = [] := by
      constructor
      · intro h
        apply List.eq_nil_iff_forall_not_mem.mpr
        intro c hc
        have := (hallow c).mpr hc
        rw [h] at this
        exact absurd this (List.not_mem_nil c)
      · intro h
        apply List.eq_nil_iff_forall_not_mem.mpr
        intro c hc
        have := (hallow c).mp hc
        rw [h] at this
        exact absurd this (List.not_mem_nil c)
    simp only [passesFilter, hallow r.StatusCode, hdeny r.StatusCode, hnil]

/-- Witness for C8: the allow-list with a duplicate and in another order, the
arrivals in another order. -/
theorem collectLoop_algebra_witness :
    (collectLoop [200, 301] [404]
        (collectLoop [200, 301] [404] [sample200, sample404, sample301]).urlResults).urlResults
        = (collectLoop [200, 301] [404] [sample200, sample404, sample301]).urlResults
      ∧ (collectLoop [200, 301] [404] [sample200, sample404, sample301]).urlResults.Perm
        (collectLoop [200, 301] [404] [sample404, sample301, sample200]).urlResults
      ∧ (collectLoop [200, 301] [404] [sample200, sample404, sample301]).urlResults
        = (collectLoop [301, 200, 200] [404, 404] [sample200, sample404, sample301]).urlResults :=
  collectLoop_algebra [200, 301] [404] [301, 200, 200] [404, 404]
    [sample200, sample404, sample301] [sample404, sample301, sample200]
    (show List.Perm ([sample200] ++ [sample404, sample301])
      ([sample404, sample301] ++ [sample200]) from List.perm_append_comm)
    (by intro c; simp only [List.mem_cons, List.mem_singleton, List.not_mem_nil]; tauto)
    (by intro c; simp only [List.mem_cons, List.mem_singleton, List.not_mem_nil]; tauto)

/-! ## Probing: claims -/

theorem HasSuffix_slash (s : GoString) :
    HasSuffix s ['/'] = true ↔ s.getLast? = some '/' := by
  unfold HasSuffix
  rw [List.isSuffixOf_iff_suffix, List.getLast?_eq_some_iff]
  constructor
  · rintro ⟨t, ht⟩
    exact ⟨t, ht.symm⟩
  · rintro ⟨t, ht⟩
    exact ⟨t, ht.symm⟩

theorem normalizeBase_eq (baseURL : GoString) :
    normalizeBase baseURL = withTrailingSlash baseURL := by
  unfold normalizeBase withTrailingSlash
  by_cases h : baseURL.getLast? = some '/'
  · simp [h, (HasSuffix_slash baseURL).mpr h]
  · have : HasSuffix baseURL ['/'] = false := by
      cases hs : HasSuffix baseURL ['/'] with
      | false => rfl
      | true => exact absurd ((HasSuffix_slash baseURL).mp hs) h
    simp [h, this]

theorem TrimPrefix_slash (dir : GoString) :
    TrimPrefix dir ['/'] = withoutLeadingSlash dir := by
  cases dir with
  | nil => simp [TrimPrefix, HasPrefix, withoutLeadingSlash]
  | cons c cs =>
    by_cases hc : c = '/'
    · subst hc
      simp [TrimPrefix, HasPrefix, withoutLeadingSlash]
    · have hne : ¬ ('/' = c) := fun h => hc h.symm
      simp [TrimPrefix, HasPrefix, hne]
      unfold withoutLeadingSlash
      split
      · rename_i rest heq
        exact absurd (List.cons.inj heq).1 hc
      · rfl

/-- C6: for every base URL and path entry, `scanURL` called with the base URL
as the per-target loop normalizes it sends exactly one result, whose URL is the
base URL with a slash appended iff it did not end with one, followed by the path
entry without one leading slash; that URL is the only one at which the network
is consulted; and both `http://h/` and `http://h` with `/a` give `http://h/a`. -/
theorem scanURL_url (httpGet : GoString → GetOutcome) (elapsed : Nat)
    (baseURL dir : GoString) (results : List ScanResult) :
    (∃ r, scanURL httpGet elapsed (normalizeBase baseURL) dir results = results ++ [r]
        ∧ r.URL = withTrailingSlash baseURL ++ withoutLeadingSlash dir)
      ∧ scanURL httpGet elapsed (normalizeBase baseURL) dir results
          = scanURL (fun _ => httpGet (withTrailingSlash baseURL ++ withoutLeadingSlash dir))
              elapsed (normalizeBase baseURL) dir results
      ∧ (scanURL httpGet elapsed (normalizeBase "http://h/".toList) "/a".toList []).map
          (fun r => r.URL) = ["http://h/a".toList]
      ∧ (scanURL httpGet elapsed (normalizeBase "http://h".toList) "/a".toList []).map
          (fun r => r.URL) = ["http://h/a".toList] := by
  refine ⟨?_, ?_, ?_, ?_⟩
  · obtain ⟨r, hr, hurl, _⟩ := scanURL_push httpGet elapsed (normalizeBase baseURL) dir results
    exact ⟨r, hr, by rw [hurl, normalizeBase_eq, TrimPrefix_slash]⟩
  · unfold scanURL
    simp only [normalizeBase_eq, TrimPrefix_slash]
  · obtain ⟨r, hr, hurl, _⟩ :=
      scanURL_push httpGet elapsed (normalizeBase "http://h/".toList) "/a".toList []
    rw [hr]
    simp only [List.nil_append, List.map_cons, List.map_nil, hurl]
    decide
  · obtain ⟨r, hr, hurl, _⟩ :=
      scanURL_push httpGet elapsed (normalizeBase "http://h".toList) "/a".toList []
    rw [hr]
    simp only [List.nil_append, List.map_cons, List.map_nil, hurl]
    decide

/-- C7: when every response the network gives carries a status code between
100 and 599, the one result `scanURL` sends has status code 0 exactly when the
GET of its URL was a transport error, and otherwise has the status code of the
response. -/
theorem scanURL_status (httpGet : GoString → GetOutcome) (elapsed : Nat)
    (baseURL dir : GoString) (results : List ScanResult)
    (hrange : ∀ u c, httpGet u = .response c → 100 ≤ c ∧ c ≤ 599) :
    ∃ r, scanURL httpGet elapsed baseURL dir results = results ++ [r]
      ∧ (r.StatusCode = 0 ↔ httpGet r.URL = .transportError)
      ∧ (∀ c, httpGet r.URL = .response c → r.StatusCode = c) := by
  obtain ⟨r, hr, _, _, herr, hresp⟩ := scanURL_push httpGet elapsed baseURL dir results
  refine ⟨r, hr, ⟨?_, herr⟩, hresp⟩
  intro h0
  cases hget : httpGet r.URL with
  | transportError => rfl
  | response c =>
    have h1 := hresp c hget
    have h2 := (hrange r.URL c hget).1
    omega

/-- Witness for C7: a network that answers 200 at one URL and fails at every
other one. -/
theorem scanURL_status_witness :
    ∃ r, scanURL sampleNet 5 "http://h/".toList "/a".toList [] = [] ++ [r]
      ∧ (r.StatusCode = 0 ↔ sampleNet r.URL = .transportError)
      ∧ (∀ c, sampleNet r.URL = .response c → r.StatusCode = c) :=
  scanURL_status sampleNet 5 "http://h/".toList "/a".toList [] (by
    intro u c h
    unfold sampleNet at h
    split at h
    · have := GetOutcome.response.inj h
      omega
    · exact absurd h (by simp))

/-! ## Status-code arguments: claims -/

theorem parseInt_fails (s : GoString) : ∃ e, parseInt s = (0, some e) := by
  unfold parseInt Sscanf_d
  cases skipSpace s with
  | error e => exact ⟨e, rfl⟩
  | ok input => exact ⟨.tooFewOperands, rfl⟩

theorem parseStatusCodes_foldl (pieces : List GoString) (codes : List Int) :
    pieces.foldl
      (fun codes code =>
        if TrimSpace code ≠ [] then
          match parseInt (TrimSpace code) with
          | (statusCode, none) => codes ++ [statusCode]
          | (_, some _) => codes
        else codes)
      codes = codes := by
  induction pieces generalizing codes with
  | nil => rfl
  | cons piece pieces ih =>
    rw [List.foldl_cons]
    obtain ⟨e, he⟩ := parseInt_fails (TrimSpace piece)
    rw [he]
    simpa using ih codes

/-- C2 (the code departs from the claim): `parseInt` hands `fmt.Sscanf` no
operand, so for every token it returns 0 with a non-nil error, and the list
built from any `-s` or `-i` argument is empty; for `200,301` the program gets
the empty list although the tokens written are 200 and 301. -/
theorem parseStatusCodes_empty :
    (∀ s : GoString, ∃ e, parseInt s = (0, some e))
      ∧ (∀ arg : GoString, parseStatusCodes arg = [])
      ∧ parseStatusCodes "200,301".toList = []
      ∧ (Split ',' "200,301".toList).map (fun t => writtenInteger (TrimSpace t))
          = [some 200, some 301] := by
  refine ⟨parseInt_fails, ?_, ?_, by decide⟩
  · intro arg
    unfold parseStatusCodes
    split
    · exact parseStatusCodes_foldl _ _
    · rfl
  · decide

/-! ## The dictionary: claims -/

theorem HasPrefix_char (s : GoString) (c : Char) :
    HasPrefix s [c] = true ↔ s.head? = some c := by
  cases s with
  | nil => simp [HasPrefix]
  | cons a as =>
    simp only [HasPrefix, List.isPrefixOf, List.head?_cons, Option.some.injEq,
      Bool.and_true, beq_iff_eq]
    exact eq_comm

theorem dictLine_eq (paths : List GoString) (text : GoString) :
    dictLine paths text = paths ++ (if isEntryLine text then [entryOfLine text] else []) := by
  unfold dictLine isEntryLine entryOfLine
  simp only []
  by_cases hne : TrimSpace text = []
  · simp [hne]
  · by_cases hhash : (TrimSpace text).head? = some '#'
    · have h1 := (HasPrefix_char (TrimSpace text) '#').mpr hhash
      simp [hne, hhash, h1]
    · have h1 : HasPrefix (TrimSpace text) ['#'] = false := by
        cases hp : HasPrefix (TrimSpace text) ['#'] with
        | false => rfl
        | true => exact absurd ((HasPrefix_char _ _).mp hp) hhash
      by_cases hslash : (TrimSpace text).head? = some '/'
      · have h2 := (HasPrefix_char (TrimSpace text) '/').mpr hslash
        simp [hne, hhash, h1, hslash, h2]
      · have h2 : HasPrefix (TrimSpace text) ['/'] = false := by
          cases hp : HasPrefix (TrimSpace text) ['/'] with
          | false => rfl
          | true => exact absurd ((HasPrefix_char _ _).mp hp) hslash
        simp [hne, hhash, h1, hslash, h2]

theorem foldl_dictLine (lines : List GoString) (paths : List GoString) :
    lines.foldl dictLine paths = paths ++ (lines.filter isEntryLine).map entryOfLine := by
  induction lines generalizing paths with
  | nil => simp
  | cons l ls ih =>
    rw [List.foldl_cons, ih, dictLine_eq]
    by_cases h : isEntryLine l = true
    · simp [h, List.filter_cons]
    · simp [h, List.filter_cons]

theorem entryOfLine_slash (line : GoString) :
    entryOfLine line ≠ [] ∧ (entryOfLine line).head? = some '/' := by
  unfold entryOfLine
  by_cases h : (TrimSpace line).head? = some '/'
  · rw [if_pos h]
    refine ⟨?_, h⟩
    intro hnil
    rw [hnil] at h
    exact absurd h (by simp)
  · rw [if_neg h]
    exact ⟨by simp, rfl⟩

theorem loadDictionary_eq (fs : DictFile) (hex : fs.notExist = false) :
    loadDictionary fs =
      if fs.openFails then .error .openFailed
      else if fs.scanFails then .error .readFailed
      else if (fs.lines.filter isEntryLine).map entryOfLine = [] then .error .emptyDictionary
      else .ok ((fs.lines.filter isEntryLine).map entryOfLine) := by
  unfold loadDictionary
  simp only [hex, foldl_dictLine, List.nil_append, List.length_eq_zero]
  rfl

/-- C10: when the dictionary file exists, a successful `loadDictionary` returns
a non-empty list whose entries are non-empty and start with a slash, namely, in
file order, the trimmed lines that are neither empty nor start with `#`, each
given a leading slash iff it had none; when no line qualifies the call returns
an error; and when the file opens and reads without error and some line
qualifies the call does succeed. -/
theorem loadDictionary_existing (fs : DictFile) (hex : fs.notExist = false) :
    (∀ paths, loadDictionary fs = .ok paths →
        paths ≠ []
          ∧ (∀ p ∈ paths, p ≠ [] ∧ p.head? = some '/')
          ∧ paths = (fs.lines.filter isEntryLine).map entryOfLine)
      ∧ ((∀ l ∈ fs.lines, isEntryLine l = false) → ∃ e, loadDictionary fs = .error e)
      ∧ (fs.openFails = false → fs.scanFails = false →
          (∃ l ∈ fs.lines, isEntryLine l = true) → ∃ paths, loadDictionary fs = .ok paths) := by
  rw [loadDictionary_eq fs hex]
  refine ⟨?_, ?_, ?_⟩
  · intro paths h
    split at h
    · exact absurd h (by simp)
    split at h
    · exact absurd h (by simp)
    split at h
    · exact absurd h (by simp)
    rename_i hne
    have hp := Except.ok.inj h
    subst hp
    refine ⟨hne, ?_, rfl⟩
    intro p hp
    obtain ⟨l, _, rfl⟩ := List.mem_map.mp hp
    exact entryOfLine_slash l
  · intro hnone
    have hnil : (fs.lines.filter isEntryLine).map entryOfLine = [] := by
      rw [List.map_eq_nil_iff, List.filter_eq_nil_iff]
      intro l hl
      simp [hnone l hl]
    rw [if_pos hnil]
    split
    · exact ⟨_, rfl⟩
    split
    · exact ⟨_, rfl⟩
    · exact ⟨_, rfl⟩
  · intro hopen hscan hsome
    obtain ⟨l, hl, hentry⟩ := hsome
    have hne : (fs.lines.filter isEntryLine).map entryOfLine ≠ [] := by
      intro hnil
      rw [List.map_eq_nil_iff, List.filter_eq_nil_iff] at hnil
      exact hnil l hl hentry
    simp only [hopen, hscan, hne, if_false, Bool.false_eq_true]
    exact ⟨_, rfl⟩

/-- Witness for C10: a file with a padded line, a comment, an empty line and a
line that already starts with a slash. -/
theorem loadDictionary_existing_witness :
    sampleDict.notExist = false
      ∧ loadDictionary sampleDict = .ok ["/admin".toList, "/x".toList]
      ∧ ["/admin".toList, "/x".toList] = (sampleDict.lines.filter isEntryLine).map entryOfLine :=
  ⟨rfl, rfl, ((loadDictionary_existing sampleDict rfl).1 ["/admin".toList, "/x".toList] rfl).2.2⟩

/-! ## The per-target loop: claims -/

theorem targetBody_fields (A D : List Int) (st : MainState) (t : GoString × TargetEnv) :
    (targetBody A D st t).allResults
        = st.allResults ++ (collectLoop A D t.2.arrivals).urlResults
      ∧ (targetBody A D st t).scanned = st.scanned ++ [normalizeBase t.1]
      ∧ (targetBody A D st t).log.length = st.log.length + 1 := by
  unfold targetBody
  simp only []
  split
  · simp
  · split <;> simp

theorem foldl_targetBody (A D : List Int) (urls : List (GoString × TargetEnv))
    (st : MainState) :
    (urls.foldl (targetBody A D) st).allResults
        = st.allResults ++ (urls.map (fun t => (collectLoop A D t.2.arrivals).urlResults)).flatten
      ∧ (urls.foldl (targetBody A D) st).scanned
        = st.scanned ++ urls.map (fun t => normalizeBase t.1)
      ∧ (urls.foldl (targetBody A D) st).log.length = st.log.length + urls.length := by
  induction urls generalizing st with
  | nil => simp
  | cons t ts ih =>
    obtain ⟨h1, h2, h3⟩ := targetBody_fields A D st t
    obtain ⟨i1, i2, i3⟩ := ih (targetBody A D st t)
    rw [List.foldl_cons]
    refine ⟨?_, ?_, ?_⟩
    · rw [i1, h1]; simp
    · rw [i2, h2]; simp
    · rw [i3, h3]; simp; omega

/-- C9: for every list of targets, and whatever `generateFileName` and
`saveResults` answer for each of them, the per-target loop scans every target
in input order (each under its normalized base URL), prints one line about
saving per target, and ends with `allResults` equal to the concatenation, in
input order, of the filtered results of each target. -/
theorem targetLoop_aggregate (A D : List Int) (urls : List (GoString × TargetEnv)) :
    (targetLoop A D urls).allResults
        = (urls.map (fun t => (collectLoop A D t.2.arrivals).urlResults)).flatten
      ∧ (targetLoop A D urls).scanned = urls.map (fun t => normalizeBase t.1)
      ∧ (targetLoop A D urls).log.length = urls.length := by
  unfold targetLoop
  obtain ⟨h1, h2, h3⟩ := foldl_targetBody A D urls
    { allResults := [], scanned := [], disk := [], log := [] }
  exact ⟨by simpa using h1, by simpa using h2, by simpa using h3⟩

/-! ## The worker pool: claims -/

theorem Pool.mainStep_idle {p q : Pool} (h : p.mainStep = some q)
    (hp : p.toSpawn = 0 ∧ p.workers = [] ∧ p.results = [] ∧ p.received = []) :
    q.toSpawn = 0 ∧ q.workers = [] ∧ q.results = [] ∧ q.received = [] := by
  obtain ⟨h1, h2, h3, h4⟩ := hp
  unfold Pool.mainStep at h
  simp only [h1, h3, Nat.lt_irrefl, if_false] at h
  split at h
  · exact absurd h (by simp)
  split at h
  · split at h
    · simp only [Option.some.injEq] at h
      subst h
      exact ⟨rfl, h2, rfl, h4⟩
    · exact absurd h (by simp)
  · split at h
    · simp only [Option.some.injEq] at h
      subst h
      exact ⟨rfl, h2, rfl, h4⟩
    split at h
    · simp only [Option.some.injEq] at h
      subst h
      exact ⟨rfl, h2, rfl, h4⟩
    split at h
    · simp only [Option.some.injEq] at h
      subst h
      exact ⟨rfl, h2, rfl, h4⟩
    · exact absurd h (by simp)

theorem Pool.step_idle {p q : Pool} (e : Event) (h : p.step e = some q)
    (hp : p.toSpawn = 0 ∧ p.workers = [] ∧ p.results = [] ∧ p.received = []) :
    q.toSpawn = 0 ∧ q.workers = [] ∧ q.results = [] ∧ q.received = [] := by
  cases e with
  | main => exact Pool.mainStep_idle h hp
  | worker i httpGet elapsed =>
    simp only [Pool.step, Pool.workerStep, hp.2.1, List.getElem?_nil] at h
    exact absurd h (by simp)
  | closer =>
    simp only [Pool.step, Pool.closerStep] at h
    split at h
    · simp only [Option.some.injEq] at h
      subst h
      exact hp
    · exact absurd h (by simp)

theorem Pool.run_idle (es : List Event) {p q : Pool} (h : p.run es = some q)
    (hp : p.toSpawn = 0 ∧ p.workers = [] ∧ p.results = [] ∧ p.received = []) :
    q.toSpawn = 0 ∧ q.workers = [] ∧ q.results = [] ∧ q.received = [] := by
  induction es generalizing p with
  | nil =>
    simp only [Pool.run, Option.some.injEq] at h
    subst h
    exact hp
  | cons e es ih =>
    simp only [Pool.run] at h
    split at h
    · exact absurd h (by simp)
    · rename_i r hr
      exact ih h (Pool.step_idle e hr hp)

/-- C3 (amended): with a worker count of 0 or less the loop that starts the
workers does not run, so in every state the pool reaches there is no worker and
no result has been sent or received; the scan is not rejected either, for from
every such state it can run to the end of the collection loop, which then has
received nothing, whatever the number of paths. -/
theorem pool_without_workers (baseURL : GoString) (paths : List GoString) (threads : Int)
    (hthreads : threads ≤ 0) :
    ∀ es q, (Pool.start baseURL paths threads).run es = some q →
      q.workers = [] ∧ q.results = [] ∧ q.received = []
        ∧ ∃ es2 q2, q.run es2 = some q2 ∧ q2.collected = true ∧ q2.received = [] := by
  intro es q hrun
  have h0 : threads.toNat = 0 := by omega
  have hidle := Pool.run_idle es hrun ⟨by simp [Pool.start, h0], rfl, rfl, rfl⟩
  have hinv := Pool.run_inv es (Pool.start_inv baseURL paths threads) hrun
  obtain ⟨es2, q2, hrun2, hcol⟩ := Pool.completes hinv
  exact ⟨hidle.2.1, hidle.2.2.1, hidle.2.2.2, es2, q2, hrun2, hcol,
    (Pool.run_idle es2 hrun2 hidle).2.2.2⟩

/-- Witness for C3 (amended): two paths and a worker count of 0; the scan ends
and has received no result. -/
theorem pool_without_workers_witness :
    (0 : Int) ≤ 0
      ∧ ((Pool.start "http://h/".toList ["/a".toList, "/b".toList] 0).run
          sampleIdleSchedule).map (fun q => (q.collected, q.received.length)) = some (true, 0)
      ∧ ∀ q, (Pool.start "http://h/".toList ["/a".toList, "/b".toList] 0).run
          sampleIdleSchedule = some q → q.received = [] :=
  ⟨by decide, by decide, fun q hq =>
    (pool_without_workers "http://h/".toList ["/a".toList, "/b".toList] 0 (by decide)
      sampleIdleSchedule q hq).2.2.1⟩

/-- C3 as stated fails: with two paths and a worker count of 0 the scan is not
rejected (it runs to the end of the collection loop) and it does not collect
two results as it does with one worker (it collects none). -/
theorem pool_zero_workers_counterexample :
    ¬ ((∀ es q, (Pool.start "http://h/".toList ["/a".toList, "/b".toList] 0).run es = some q →
          q.collected = false)
        ∨ (∀ es q, (Pool.start "http://h/".toList ["/a".toList, "/b".toList] 0).run es = some q →
          q.collected = true → q.received.length = ["/a".toList, "/b".toList].length)) := by
  have hmap : ((Pool.start "http://h/".toList ["/a".toList, "/b".toList] 0).run
      sampleIdleSchedule).map (fun q => (q.collected, q.received.length)) = some (true, 0) := by
    decide
  cases hq : (Pool.start "http://h/".toList ["/a".toList, "/b".toList] 0).run
      sampleIdleSchedule with
  | none =>
    rw [hq] at hmap
    exact absurd hmap (by simp)
  | some q =>
    rw [hq] at hmap
    simp only [Option.map_some', Option.some.injEq, Prod.mk.injEq] at hmap
    rintro (h | h)
    · have := h sampleIdleSchedule q hq
      rw [hmap.1] at this
      exact absurd this (by simp)
    · have := h sampleIdleSchedule q hq hmap.1
      rw [hmap.2] at this
      exact absurd this (by decide)

/-- C4: for every base URL, every dictionary of `n` paths and every worker
count of at least 1: each call of `scanURL` sends exactly one result; no
goroutine ever sends on a closed channel; once `results` is closed exactly `n`
results have been sent; a collection loop that has ended has received exactly
`n` results, whose URLs are, up to order, the URLs composed from the `n` paths;
no schedule is longer than the fuel of the initial state; and from every state
the scan reaches, it can run on to the end of the collection loop. -/
theorem pool_delivers_all (baseURL : GoString) (paths : List GoString) (threads : Int)
    (hthreads : 1 ≤ threads) :
    (∀ (httpGet : GoString → GetOutcome) (elapsed : Nat) (base dir : GoString)
        (results : List ScanResult),
        ∃ r, scanURL httpGet elapsed base dir results = results ++ [r])
      ∧ ∀ es q, (Pool.start baseURL paths threads).run es = some q →
          q.panicked = false
            ∧ (q.resultsClosed = true → q.results.length + q.received.length = paths.length)
            ∧ (q.collected = true →
                q.received.length = paths.length
                  ∧ (q.received.map (fun r => r.URL)).Perm
                      (paths.map (fun dir => baseURL ++ TrimPrefix dir ['/'])))
            ∧ es.length ≤ (Pool.start baseURL paths threads).fuel
            ∧ ∃ es2 q2, q.run es2 = some q2 ∧ q2.collected = true
                ∧ q2.received.length = paths.length := by
  constructor
  · intro httpGet elapsed base dir results
    obtain ⟨r, hr, _⟩ := scanURL_push httpGet elapsed base dir results
    exact ⟨r, hr⟩
  · intro es q hrun
    have hpos : 1 ≤ threads.toNat := by omega
    have hstart := Pool.start_inv baseURL paths threads
    have hinv := Pool.run_inv es hstart hrun
    have hdone : ∀ r : Pool, r.Inv paths.length threads.toNat → r.collected = true →
        r.received.length = paths.length := by
      intro r hr hcol
      obtain ⟨hrc, hres⟩ := hr.collectedAfter hcol
      have := Pool.received_all hr hpos hrc
      rw [hres] at this
      simpa using this
    have hbound := Pool.run_fuel es hstart hrun
    obtain ⟨es2, q2, hrun2, hcol2⟩ := Pool.completes hinv
    exact ⟨hinv.noPanic, Pool.received_all hinv hpos,
      fun hcol => ⟨hdone q hinv hcol, Pool.received_perm hthreads hrun hcol⟩,
      by omega, es2, q2, hrun2, hcol2, hdone q2 (Pool.run_inv es2 hinv hrun2) hcol2⟩

/-- Witness for C4: two paths, two workers, and a schedule in which the
results arrive in the opposite order of the dictionary. -/
theorem pool_delivers_all_witness :
    (1 : Int) ≤ 2
      ∧ ((Pool.start "http://h/".toList ["/a".toList, "/b".toList] 2).run
          sampleSchedule).map (fun q => (q.collected, q.received.map (fun r => r.URL)))
        = some (true, ["http://h/b".toList, "http://h/a".toList])
      ∧ ∀ q, (Pool.start "http://h/".toList ["/a".toList, "/b".toList] 2).run
          sampleSchedule = some q → q.collected = true → q.received.length = 2 :=
  ⟨by decide, by decide, fun q hq hcol =>
    (((pool_delivers_all "http://h/".toList ["/a".toList, "/b".toList] 2 (by decide)).2
      sampleSchedule q hq).2.2.1 hcol).1⟩

end AIdirscan
